import Mathlib

/-!
Shallow embedding of the table-sorting click handler (main.js lines 165-196)
and the number-input sanitizer (main.js lines 72-85) of the CancerRiskChecker
front end.

Strings are modelled as lists of characters.  The JS primitive
localeCompare with the numeric collation option enabled is modelled by a
natural-order comparison: maximal digit runs compare by numeric value
(ties broken by the raw digit text), other characters compare by code point,
and a digit run sorts before any non-digit character.  Array.prototype.sort
is modelled by a stable insertion sort, matching the stability required by
the ECMAScript specification (for a consistent comparator the stably sorted
permutation is unique, so any conforming engine agrees with this model).
A thrown TypeError (null dereference on a missing table or tbody) is
modelled by the error case of Except.
-/

/-- Three-way comparison of natural numbers. -/
def natCmp (a b : Nat) : Ordering :=
  if a < b then Ordering.lt else if b < a then Ordering.gt else Ordering.eq

/-- Three-way comparison of characters by code point. -/
def charCmp (a b : Char) : Ordering := natCmp a.toNat b.toNat

/-- Lexicographic three-way comparison of lists. -/
def listCmp (f : α → α → Ordering) : List α → List α → Ordering
  | [], [] => Ordering.eq
  | [], _ :: _ => Ordering.lt
  | _ :: _, [] => Ordering.gt
  | a :: as, b :: bs => (f a b).then (listCmp f as bs)

/-- Collation token: a maximal digit run (numeric value plus the raw digit
text) or a single non-digit character. -/
inductive Tok where
  | num (v : Nat) (raw : List Char)
  | ch (c : Char)
deriving DecidableEq

/-- Numeric value of a list of digit characters. -/
def digitsVal (l : List Char) : Nat :=
  l.foldl (fun a c => a * 10 + (c.toNat - 48)) 0

/-- Raw text a token stands for. -/
def Tok.raw : Tok → List Char
  | .num _ r => r
  | .ch c => [c]

/-- Tokenizer for the numeric collation model: groups maximal digit runs. -/
def tokenize : List Char → List Tok
  | [] => []
  | c :: cs =>
    if c.isDigit then
      match tokenize cs with
      | Tok.num _ r :: ts => Tok.num (digitsVal (c :: r)) (c :: r) :: ts
      | ts => Tok.num (digitsVal [c]) [c] :: ts
    else Tok.ch c :: tokenize cs

/-- Three-way comparison of tokens: digit runs by numeric value and then raw
text, characters by code point, and a digit run before any character. -/
def Tok.cmp : Tok → Tok → Ordering
  | .num v₁ r₁, .num v₂ r₂ => (natCmp v₁ v₂).then (listCmp charCmp r₁ r₂)
  | .num _ _, .ch _ => Ordering.lt
  | .ch _, .num _ _ => Ordering.gt
  | .ch c₁, .ch c₂ => charCmp c₁ c₂

/-- Model of the JS call a.localeCompare(b, undefined, numeric collation on),
returning an Ordering in place of a negative, zero or positive number. -/
def localeCompareNumeric (a b : List Char) : Ordering :=
  listCmp Tok.cmp (tokenize a) (tokenize b)

/-- Model of String.prototype.trim: drop leading and trailing whitespace. -/
def trimChars (l : List Char) : List Char :=
  ((l.dropWhile Char.isWhitespace).reverse.dropWhile Char.isWhitespace).reverse

/-- A table row, given by the text contents of its cells in order. -/
abbrev Row := List (List Char)

/-- The comparator the click handler passes to rows.sort: it extracts the
trimmed text of each row at the clicked column and, depending on the
pre-click isAscending flag, compares bValue against aValue (when the header
was ascending, so the new direction is descending) or aValue against bValue
(otherwise, the new direction being ascending).  A missing cell is modelled
as empty text. -/
def sortComparator (column : Nat) (isAscending : Bool) (a b : Row) : Ordering :=
  let aValue := trimChars (a.getD column [])
  let bValue := trimChars (b.getD column [])
  if isAscending then localeCompareNumeric bValue aValue
  else localeCompareNumeric aValue bValue

/-- Stable insertion of an element into a list: the element passes over
exactly the strictly smaller prefix, so equal elements keep their relative
order. -/
def insertCmp (cmp : α → α → Ordering) (x : α) : List α → List α
  | [] => [x]
  | y :: ys => if cmp x y = Ordering.gt then y :: insertCmp cmp x ys else x :: y :: ys

/-- Stable sort by a three-way comparator, modelling Array.prototype.sort. -/
def sortCmp (cmp : α → α → Ordering) : List α → List α
  | [] => []
  | x :: xs => insertCmp cmp x (sortCmp cmp xs)

/-- Key a row is sorted by: the trimmed text of its cell in the clicked
column. -/
def cellKey (column : Nat) (r : Row) : List Char :=
  trimChars (r.getD column [])

/-- CSS marker state of one header cell: whether it matches the sortable
selector, and whether its class list holds the sort-asc or sort-desc
marker. -/
structure HeaderState where
  sortable : Bool
  sortAsc : Bool
  sortDesc : Bool
deriving DecidableEq, Inhabited, Repr

/-- The part of the document a click on a sortable header touches: the
header row children in order, whether the closest table exists, whether
that table has a tbody, and the rows of that tbody. -/
structure SortClickState where
  headers : List HeaderState
  hasTable : Bool
  hasTbody : Bool
  rows : List Row
deriving DecidableEq, Repr

/-- Removal of the existing sort classes: strips the sort-asc and sort-desc
markers from every header matching the sortable selector (main.js line 176). -/
def clearSortMarkers (headers : List HeaderState) : List HeaderState :=
  headers.map fun h =>
    if h.sortable then { h with sortAsc := false, sortDesc := false } else h

/-- Addition of the new sort class on the clicked header (main.js line 179):
sort-desc when the header was ascending before the click, sort-asc
otherwise. -/
def applySortMarker (headers : List HeaderState) (i : Nat) (isAscending : Bool) :
    List HeaderState :=
  headers.set i
    (if isAscending then { headers.getD i default with sortDesc := true }
     else { headers.getD i default with sortAsc := true })

/-- The click handler attached to each sortable header, for a click on the
header at sibling index i.  Mirrors main.js lines 168-195: a missing table
or tbody makes the very next property access throw a TypeError (the error
case); otherwise the handler reads the pre-click sort-asc marker, strips
both markers from every sortable header, marks the clicked header with the
toggled direction, sorts the rows with sortComparator and re-appends them,
which leaves the tbody holding exactly the sorted sequence. -/
def clickSortableHeader (s : SortClickState) (i : Nat) : Except Unit SortClickState :=
  if !s.hasTable then Except.error () else
  if !s.hasTbody then Except.error () else
  let column := i
  let isAscending := (s.headers.getD i default).sortAsc
  let marked := applySortMarker (clearSortMarkers s.headers) i isAscending
  let sorted := sortCmp (sortComparator column isAscending) s.rows
  Except.ok { s with headers := marked, rows := sorted }

/-- Split a character list at every dot, modelling the JS split of a string
on the dot separator. -/
def splitDot : List Char → List (List Char)
  | [] => [[]]
  | c :: cs =>
    match splitDot cs with
    | [] => [[]]
    | p :: ps => if c = '.' then [] :: p :: ps else (c :: p) :: ps

/-- The input handler on number inputs, main.js lines 75-84: first strips
every character that is not a digit and not a dot, then, if more than one
dot remains, rebuilds the value as the first dot-free part, one dot, and
the remaining parts concatenated without separators. -/
def sanitizeNumberValue (value : List Char) : List Char :=
  let v := value.filter fun c => c.isDigit || c == '.'
  let parts := splitDot v
  if parts.length > 2 then parts.headD [] ++ '.' :: (parts.drop 1).flatten
  else v

/-! ### Ordering helpers -/

theorem ordThen_eq_eq {o p : Ordering} :
    o.then p = Ordering.eq ↔ o = Ordering.eq ∧ p = Ordering.eq := by
  cases o <;> simp [Ordering.then]

theorem ordThen_eq_lt {o p : Ordering} :
    o.then p = Ordering.lt ↔ o = Ordering.lt ∨ (o = Ordering.eq ∧ p = Ordering.lt) := by
  cases o <;> simp [Ordering.then]

theorem ordThen_swap {o p : Ordering} : (o.then p).swap = o.swap.then p.swap := by
  cases o <;> cases p <;> rfl

/-! ### natCmp and charCmp -/

theorem natCmp_swap (a b : Nat) : natCmp a b = (natCmp b a).swap := by
  rcases Nat.lt_trichotomy a b with h | h | h
  · have h' : ¬ b < a := by omega
    simp [natCmp, h, h', Ordering.swap]
  · simp [natCmp, h, Nat.lt_irrefl, Ordering.swap]
  · have h' : ¬ a < b := by omega
    simp [natCmp, h, h', Ordering.swap]

theorem natCmp_eq_iff {a b : Nat} : natCmp a b = Ordering.eq ↔ a = b := by
  unfold natCmp
  split
  · simp; omega
  · split <;> simp <;> omega

theorem natCmp_lt_iff {a b : Nat} : natCmp a b = Ordering.lt ↔ a < b := by
  unfold natCmp
  split
  · simp; omega
  · split <;> simp <;> omega

theorem charCmp_swap (a b : Char) : charCmp a b = (charCmp b a).swap :=
  natCmp_swap a.toNat b.toNat

theorem charCmp_eq {a b : Char} (h : charCmp a b = Ordering.eq) : a = b :=
  Char.ext (UInt32.toNat.inj (natCmp_eq_iff.mp h))

theorem charCmp_refl (a : Char) : charCmp a a = Ordering.eq :=
  natCmp_eq_iff.mpr rfl

theorem charCmp_lt_trans {a b c : Char} (h₁ : charCmp a b = Ordering.lt)
    (h₂ : charCmp b c = Ordering.lt) : charCmp a c = Ordering.lt :=
  natCmp_lt_iff.mpr (Nat.lt_trans (natCmp_lt_iff.mp h₁) (natCmp_lt_iff.mp h₂))

/-! ### listCmp -/

theorem listCmp_swap (f : α → α → Ordering) (hf : ∀ a b, f a b = (f b a).swap) :
    ∀ l₁ l₂, listCmp f l₁ l₂ = (listCmp f l₂ l₁).swap
  | [], [] => rfl
  | [], _ :: _ => rfl
  | _ :: _, [] => rfl
  | a :: as, b :: bs => by
    rw [listCmp, listCmp, ordThen_swap, ← hf, ← listCmp_swap f hf as bs]

theorem listCmp_eq (f : α → α → Ordering) (hf : ∀ a b, f a b = Ordering.eq → a = b) :
    ∀ l₁ l₂, listCmp f l₁ l₂ = Ordering.eq → l₁ = l₂
  | [], [], _ => rfl
  | [], _ :: _, h => by simp [listCmp] at h
  | _ :: _, [], h => by simp [listCmp] at h
  | a :: as, b :: bs, h => by
    rw [listCmp, ordThen_eq_eq] at h
    rw [hf a b h.1, listCmp_eq f hf as bs h.2]

theorem listCmp_refl (f : α → α → Ordering) (hf : ∀ a, f a a = Ordering.eq) :
    ∀ l, listCmp f l l = Ordering.eq
  | [] => rfl
  | a :: as => by
    rw [listCmp, hf a, listCmp_refl f hf as]
    rfl

theorem listCmp_lt_trans (f : α → α → Ordering)
    (hfeq : ∀ a b, f a b = Ordering.eq → a = b)
    (hflt : ∀ a b c, f a b = Ordering.lt → f b c = Ordering.lt → f a c = Ordering.lt) :
    ∀ l₁ l₂ l₃, listCmp f l₁ l₂ = Ordering.lt → listCmp f l₂ l₃ = Ordering.lt →
      listCmp f l₁ l₃ = Ordering.lt
  | [], [], _, h₁, _ => by simp [listCmp] at h₁
  | [], _ :: _, [], _, h₂ => by simp [listCmp] at h₂
  | [], _ :: _, _ :: _, _, _ => rfl
  | _ :: _, [], _, h₁, _ => by simp [listCmp] at h₁
  | _ :: _, _ :: _, [], _, h₂ => by simp [listCmp] at h₂
  | a :: as, b :: bs, c :: cs, h₁, h₂ => by
    rw [listCmp, ordThen_eq_lt] at h₁ h₂ ⊢
    rcases h₁ with h₁ | ⟨h₁e, h₁t⟩ <;> rcases h₂ with h₂ | ⟨h₂e, h₂t⟩
    · exact Or.inl (hflt a b c h₁ h₂)
    · obtain rfl := hfeq b c h₂e
      exact Or.inl h₁
    · obtain rfl := hfeq a b h₁e
      exact Or.inl h₂
    · obtain rfl := hfeq a b h₁e
      obtain rfl := hfeq a c h₂e
      exact Or.inr ⟨h₁e, listCmp_lt_trans f hfeq hflt as bs cs h₁t h₂t⟩

/-! ### Token comparison -/

theorem tokCmp_swap (t₁ t₂ : Tok) : Tok.cmp t₁ t₂ = (Tok.cmp t₂ t₁).swap := by
  cases t₁ <;> cases t₂ <;> try rfl
  case num.num v₁ r₁ v₂ r₂ =>
    rw [Tok.cmp, Tok.cmp, ordThen_swap, ← natCmp_swap,
      ← listCmp_swap charCmp charCmp_swap]
  case ch.ch c₁ c₂ => exact charCmp_swap c₁ c₂

theorem tokCmp_eq : ∀ t₁ t₂ : Tok, Tok.cmp t₁ t₂ = Ordering.eq → t₁ = t₂
  | .num v₁ r₁, .num v₂ r₂, h => by
    rw [Tok.cmp, ordThen_eq_eq] at h
    rw [natCmp_eq_iff.mp h.1, listCmp_eq charCmp (fun a b => charCmp_eq) r₁ r₂ h.2]
  | .num _ _, .ch _, h => by simp [Tok.cmp] at h
  | .ch _, .num _ _, h => by simp [Tok.cmp] at h
  | .ch c₁, .ch c₂, h => by rw [charCmp_eq h]

theorem tokCmp_refl : ∀ t : Tok, Tok.cmp t t = Ordering.eq
  | .num v r => by
    rw [Tok.cmp, natCmp_eq_iff.mpr rfl, listCmp_refl charCmp charCmp_refl r]
    rfl
  | .ch c => charCmp_refl c

theorem tokCmp_lt_trans :
    ∀ t₁ t₂ t₃ : Tok, Tok.cmp t₁ t₂ = Ordering.lt → Tok.cmp t₂ t₃ = Ordering.lt →
      Tok.cmp t₁ t₃ = Ordering.lt
  | .num v₁ r₁, .num v₂ r₂, .num v₃ r₃, h₁, h₂ => by
    rw [Tok.cmp, ordThen_eq_lt] at h₁ h₂ ⊢
    rcases h₁ with h₁ | ⟨h₁e, h₁t⟩ <;> rcases h₂ with h₂ | ⟨h₂e, h₂t⟩
    · exact Or.inl (natCmp_lt_iff.mpr
        (Nat.lt_trans (natCmp_lt_iff.mp h₁) (natCmp_lt_iff.mp h₂)))
    · obtain rfl := natCmp_eq_iff.mp h₂e
      exact Or.inl h₁
    · obtain rfl := natCmp_eq_iff.mp h₁e
      exact Or.inl h₂
    · obtain rfl := natCmp_eq_iff.mp h₁e
      obtain rfl := natCmp_eq_iff.mp h₂e
      exact Or.inr ⟨h₁e, listCmp_lt_trans charCmp (fun a b => charCmp_eq)
        (fun a b c => charCmp_lt_trans) r₁ r₂ r₃ h₁t h₂t⟩
  | .num _ _, .num _ _, .ch _, _, _ => rfl
  | .num _ _, .ch _, .num _ _, _, h₂ => by simp [Tok.cmp] at h₂
  | .num _ _, .ch _, .ch _, _, _ => rfl
  | .ch _, .num _ _, _, h₁, _ => by simp [Tok.cmp] at h₁
  | .ch _, .ch _, .num _ _, _, h₂ => by simp [Tok.cmp] at h₂
  | .ch c₁, .ch c₂, .ch c₃, h₁, h₂ => charCmp_lt_trans h₁ h₂

/-! ### Tokenizer injectivity -/

theorem flatMapRaw_tokenize : ∀ l : List Char, (tokenize l).flatMap Tok.raw = l := by
  intro l
  induction l with
  | nil => rfl
  | cons c cs ih =>
    rw [tokenize]
    by_cases hd : c.isDigit
    · simp only [hd, if_true]
      cases htk : tokenize cs with
      | nil =>
        rw [htk] at ih
        simp only [List.flatMap_nil] at ih
        simp [List.flatMap_cons, Tok.raw, ← ih]
      | cons t ts =>
        cases t with
        | num v r =>
          rw [htk] at ih
          simp only [List.flatMap_cons, Tok.raw] at ih
          simp only [List.flatMap_cons, Tok.raw, ← ih, List.cons_append]
        | ch c' =>
          rw [htk] at ih
          simp only [List.flatMap_cons, Tok.raw] at ih
          simp [List.flatMap_cons, Tok.raw, ← ih]
    · simp only [hd, if_false]
      simp [List.flatMap_cons, Tok.raw, ih]

theorem tokenize_inj {a b : List Char} (h : tokenize a = tokenize b) : a = b := by
  rw [← flatMapRaw_tokenize a, ← flatMapRaw_tokenize b, h]

/-! ### Properties of the localeCompare model -/

theorem lcn_swap (a b : List Char) :
    localeCompareNumeric a b = (localeCompareNumeric b a).swap :=
  listCmp_swap Tok.cmp tokCmp_swap _ _

theorem lcn_eq {a b : List Char} (h : localeCompareNumeric a b = Ordering.eq) :
    a = b :=
  tokenize_inj (listCmp_eq Tok.cmp tokCmp_eq _ _ h)

theorem lcn_refl (a : List Char) : localeCompareNumeric a a = Ordering.eq :=
  listCmp_refl Tok.cmp tokCmp_refl _

theorem lcn_lt_trans {a b c : List Char}
    (h₁ : localeCompareNumeric a b = Ordering.lt)
    (h₂ : localeCompareNumeric b c = Ordering.lt) :
    localeCompareNumeric a c = Ordering.lt :=
  listCmp_lt_trans Tok.cmp tokCmp_eq tokCmp_lt_trans _ _ _ h₁ h₂

theorem lcn_le_trans {a b c : List Char}
    (h₁ : localeCompareNumeric a b ≠ Ordering.gt)
    (h₂ : localeCompareNumeric b c ≠ Ordering.gt) :
    localeCompareNumeric a c ≠ Ordering.gt := by
  cases e₁ : localeCompareNumeric a b with
  | gt => exact absurd e₁ h₁
  | eq =>
    obtain rfl := lcn_eq e₁
    exact h₂
  | lt =>
    cases e₂ : localeCompareNumeric b c with
    | gt => exact absurd e₂ h₂
    | eq =>
      obtain rfl := lcn_eq e₂
      rw [e₁]
      exact fun h => nomatch h
    | lt =>
      rw [lcn_lt_trans e₁ e₂]
      exact fun h => nomatch h

/-! ### Sorting theory for the insertion-sort model -/

theorem insertCmp_perm (cmp : α → α → Ordering) (x : α) :
    ∀ l : List α, List.Perm (insertCmp cmp x l) (x :: l)
  | [] => List.Perm.refl _
  | y :: ys => by
    rw [insertCmp]
    split
    · exact (List.Perm.cons y (insertCmp_perm cmp x ys)).trans (List.Perm.swap x y ys)
    · exact List.Perm.refl _

theorem sortCmp_perm (cmp : α → α → Ordering) :
    ∀ l : List α, List.Perm (sortCmp cmp l) l
  | [] => List.Perm.refl _
  | x :: xs =>
    (insertCmp_perm cmp x (sortCmp cmp xs)).trans (List.Perm.cons x (sortCmp_perm cmp xs))

theorem mem_insertCmp {cmp : α → α → Ordering} {x z : α} {l : List α} :
    z ∈ insertCmp cmp x l ↔ z = x ∨ z ∈ l := by
  rw [(insertCmp_perm cmp x l).mem_iff, List.mem_cons]

theorem insertCmp_pairwise {cmp : α → α → Ordering}
    (hswap : ∀ a b, cmp a b = (cmp b a).swap)
    (htr : ∀ a b c, cmp a b ≠ Ordering.gt → cmp b c ≠ Ordering.gt → cmp a c ≠ Ordering.gt)
    (x : α) :
    ∀ l : List α, List.Pairwise (fun a b => cmp a b ≠ Ordering.gt) l →
      List.Pairwise (fun a b => cmp a b ≠ Ordering.gt) (insertCmp cmp x l)
  | [], _ => List.pairwise_singleton _ x
  | y :: ys, h => by
    obtain ⟨hy, hys⟩ := List.pairwise_cons.mp h
    rw [insertCmp]
    split
    case isTrue hgt =>
      refine List.pairwise_cons.mpr ⟨?_, insertCmp_pairwise hswap htr x ys hys⟩
      intro z hz
      rcases mem_insertCmp.mp hz with rfl | hz'
      · rw [hswap y z, hgt]
        exact fun hc => nomatch hc
      · exact hy z hz'
    case isFalse hle =>
      refine List.pairwise_cons.mpr ⟨?_, h⟩
      intro z hz
      rcases List.mem_cons.mp hz with rfl | hz'
      · exact hle
      · exact htr x y z hle (hy z hz')

theorem sortCmp_pairwise {cmp : α → α → Ordering}
    (hswap : ∀ a b, cmp a b = (cmp b a).swap)
    (htr : ∀ a b c, cmp a b ≠ Ordering.gt → cmp b c ≠ Ordering.gt → cmp a c ≠ Ordering.gt) :
    ∀ l : List α, List.Pairwise (fun a b => cmp a b ≠ Ordering.gt) (sortCmp cmp l)
  | [] => List.Pairwise.nil
  | x :: xs => insertCmp_pairwise hswap htr x _ (sortCmp_pairwise hswap htr xs)

theorem sortCmp_eq_of_pairwise {cmp : α → α → Ordering} :
    ∀ l : List α, List.Pairwise (fun a b => cmp a b ≠ Ordering.gt) l → sortCmp cmp l = l
  | [], _ => rfl
  | x :: xs, h => by
    obtain ⟨hx, hxs⟩ := List.pairwise_cons.mp h
    rw [sortCmp, sortCmp_eq_of_pairwise xs hxs]
    cases xs with
    | nil => rfl
    | cons y ys => rw [insertCmp, if_neg (hx y (List.mem_cons_self y ys))]

theorem sortCmp_flip_eq_reverse {cmp : α → α → Ordering}
    (hswap : ∀ a b, cmp a b = (cmp b a).swap)
    (htr : ∀ a b c, cmp a b ≠ Ordering.gt → cmp b c ≠ Ordering.gt → cmp a c ≠ Ordering.gt)
    (l : List α) (hdist : List.Pairwise (fun a b => cmp a b ≠ Ordering.eq) l) :
    sortCmp (fun a b => cmp b a) (sortCmp cmp l) = (sortCmp cmp l).reverse := by
  have hswap' : ∀ a b : α, cmp b a = (cmp a b).swap := fun a b => hswap b a
  have htr' : ∀ a b c : α, cmp b a ≠ Ordering.gt → cmp c b ≠ Ordering.gt →
      cmp c a ≠ Ordering.gt := fun a b c h₁ h₂ => htr c b a h₂ h₁
  have hS : ∀ {x y : α}, cmp x y ≠ Ordering.eq → cmp y x ≠ Ordering.eq := by
    intro x y h he
    exact h (by rw [hswap x y, he]; rfl)
  have hAperm : List.Perm (sortCmp cmp l) l := sortCmp_perm cmp l
  have hDperm : List.Perm (sortCmp (fun a b => cmp b a) (sortCmp cmp l)) (sortCmp cmp l) :=
    sortCmp_perm _ _
  have hAsorted := sortCmp_pairwise hswap htr l
  have hDsorted := @sortCmp_pairwise _ (fun a b => cmp b a)
    (fun a b => hswap' a b) (fun a b c => htr' a b c) (sortCmp cmp l)
  have hAdist : List.Pairwise (fun a b => cmp a b ≠ Ordering.eq) (sortCmp cmp l) :=
    (List.Perm.pairwise_iff (fun h => hS h) hAperm).mpr hdist
  have hDdist : List.Pairwise (fun a b => cmp a b ≠ Ordering.eq)
      (sortCmp (fun a b => cmp b a) (sortCmp cmp l)) :=
    (List.Perm.pairwise_iff (fun h => hS h) hDperm).mpr hAdist
  have hlt : ∀ a b : α, cmp b a ≠ Ordering.gt → cmp a b ≠ Ordering.eq →
      cmp b a = Ordering.lt := by
    intro a b h₁ h₂
    cases e : cmp b a with
    | lt => rfl
    | eq => exact absurd (by rw [hswap a b, e]; rfl) h₂
    | gt => exact absurd e h₁
  have hDstrict : List.Pairwise (fun a b => cmp b a = Ordering.lt)
      (sortCmp (fun a b => cmp b a) (sortCmp cmp l)) :=
    (hDsorted.and hDdist).imp (fun h => hlt _ _ h.1 h.2)
  have hAstrict : List.Pairwise (fun a b => cmp a b = Ordering.lt) (sortCmp cmp l) := by
    refine (hAsorted.and hAdist).imp (fun h => ?_)
    cases e : cmp _ _ with
    | lt => rfl
    | eq => exact absurd e h.2
    | gt => exact absurd e h.1
  have hRevStrict : List.Pairwise (fun a b => cmp b a = Ordering.lt)
      (sortCmp cmp l).reverse :=
    List.pairwise_reverse.mpr hAstrict
  have hperm : List.Perm (sortCmp (fun a b => cmp b a) (sortCmp cmp l))
      (sortCmp cmp l).reverse :=
    hDperm.trans (List.reverse_perm (sortCmp cmp l)).symm
  have hanti : IsAntisymm α (fun a b => cmp b a = Ordering.lt) := by
    refine ⟨fun a b h₁ h₂ => ?_⟩
    rw [hswap b a, h₂] at h₁
    exact nomatch h₁
  exact @List.eq_of_perm_of_sorted α (fun a b => cmp b a = Ordering.lt) hanti _ _
    hperm hDstrict hRevStrict

/-! ### getD helpers -/

theorem getD_set_self (l : List α) (i : Nat) (v d : α) (h : i < l.length) :
    (l.set i v).getD i d = v := by
  induction l generalizing i with
  | nil => simp at h
  | cons x xs ih =>
    cases i with
    | zero => rfl
    | succ n => exact ih n (by simpa using h)

theorem getD_set_ne (l : List α) {i j : Nat} (v d : α) (h : j ≠ i) :
    (l.set i v).getD j d = l.getD j d := by
  induction l generalizing i j with
  | nil => simp [List.set]
  | cons x xs ih =>
    cases i with
    | zero =>
      cases j with
      | zero => exact absurd rfl h
      | succ m => rfl
    | succ n =>
      cases j with
      | zero => rfl
      | succ m => simpa using ih (fun he => h (by rw [he]))

theorem getD_map_of_lt (f : α → β) (l : List α) (j : Nat) (d : α) (dm : β)
    (h : j < l.length) :
    (l.map f).getD j dm = f (l.getD j d) := by
  induction l generalizing j with
  | nil => simp at h
  | cons x xs ih =>
    cases j with
    | zero => rfl
    | succ n => exact ih n (by simpa using h)

theorem getD_of_length_le (l : List α) (j : Nat) (d : α) (h : l.length ≤ j) :
    l.getD j d = d := by
  induction l generalizing j with
  | nil => rfl
  | cons x xs ih =>
    cases j with
    | zero => simp at h
    | succ n => exact ih n (by simpa using h)

/-! ### Inversion of the click handler -/

theorem clickSortableHeader_ok {s t : SortClickState} {i : Nat}
    (hok : clickSortableHeader s i = Except.ok t) :
    s.hasTable = true ∧ s.hasTbody = true ∧
      t = { s with
            headers := applySortMarker (clearSortMarkers s.headers) i
              ((s.headers.getD i default).sortAsc),
            rows := sortCmp (sortComparator i ((s.headers.getD i default).sortAsc)) s.rows } := by
  cases hT : s.hasTable with
  | false => simp [clickSortableHeader, hT] at hok
  | true =>
    cases hB : s.hasTbody with
    | false => simp [clickSortableHeader, hT, hB] at hok
    | true =>
      simp only [clickSortableHeader, hT, hB, Bool.not_true, Bool.false_eq_true,
        if_false, Except.ok.injEq] at hok
      exact ⟨rfl, rfl, hok.symm⟩

theorem clickSortableHeader_error {s : SortClickState} {i : Nat}
    (h : s.hasTable = false ∨ s.hasTbody = false) :
    clickSortableHeader s i = Except.error () := by
  rcases h with h | h
  · simp [clickSortableHeader, h]
  · cases hT : s.hasTable <;> simp [clickSortableHeader, hT, h]

/-! ### splitDot lemmas -/

theorem splitDot_ne_nil : ∀ l : List Char, splitDot l ≠ []
  | [], h => nomatch h
  | c :: cs, h => by
    rw [splitDot] at h
    cases htk : splitDot cs with
    | nil => exact splitDot_ne_nil cs htk
    | cons p ps =>
      rw [htk] at h
      dsimp only at h
      by_cases hc : c = '.'
      · rw [if_pos hc] at h
        exact nomatch h
      · rw [if_neg hc] at h
        exact nomatch h

theorem splitDot_cons (c : Char) (cs : List Char) (p : List Char) (ps : List (List Char))
    (htk : splitDot cs = p :: ps) :
    splitDot (c :: cs) = if c = '.' then [] :: p :: ps else (c :: p) :: ps := by
  rw [splitDot, htk]

theorem splitDot_length : ∀ l : List Char, (splitDot l).length = l.count '.' + 1
  | [] => rfl
  | c :: cs => by
    cases htk : splitDot cs with
    | nil => exact absurd htk (splitDot_ne_nil cs)
    | cons p ps =>
      have ih := splitDot_length cs
      rw [htk] at ih
      simp only [List.length_cons] at ih
      rw [splitDot_cons c cs p ps htk]
      by_cases hc : c = '.'
      · subst hc
        rw [if_pos rfl]
        simp [List.count_cons]
        omega
      · rw [if_neg hc]
        have hbe : (c == '.') = false := by simp [hc]
        simp [List.count_cons, hbe]
        omega

theorem splitDot_parts :
    ∀ l : List Char, ∀ p ∈ splitDot l, ∀ c ∈ p, c ∈ l ∧ c ≠ '.'
  | [], p, hp, c, hc => by
    simp [splitDot] at hp
    subst hp
    simp at hc
  | d :: cs, p, hp, c, hc => by
    cases htk : splitDot cs with
    | nil => exact absurd htk (splitDot_ne_nil cs)
    | cons q qs =>
      rw [splitDot_cons d cs q qs htk] at hp
      by_cases hd : d = '.'
      · rw [if_pos hd] at hp
        rcases List.mem_cons.mp hp with rfl | hp'
        · simp at hc
        · have hmem : p ∈ splitDot cs := by rw [htk]; exact hp'
          obtain ⟨h₁, h₂⟩ := splitDot_parts cs p hmem c hc
          exact ⟨List.mem_cons_of_mem d h₁, h₂⟩
      · rw [if_neg hd] at hp
        rcases List.mem_cons.mp hp with rfl | hp'
        · rcases List.mem_cons.mp hc with rfl | hc'
          · exact ⟨List.mem_cons_self c cs, hd⟩
          · have hmem : q ∈ splitDot cs := by
              rw [htk]
              exact List.mem_cons_self q qs
            obtain ⟨h₁, h₂⟩ := splitDot_parts cs q hmem c hc'
            exact ⟨List.mem_cons_of_mem d h₁, h₂⟩
        · have hmem : p ∈ splitDot cs := by
            rw [htk]
            exact List.mem_cons_of_mem q hp'
          obtain ⟨h₁, h₂⟩ := splitDot_parts cs p hmem c hc
          exact ⟨List.mem_cons_of_mem d h₁, h₂⟩

/-! ### Row comparator properties -/

theorem sortComparator_swap (column : Nat) (d : Bool) (a b : Row) :
    sortComparator column d a b = (sortComparator column d b a).swap := by
  cases d
  · exact lcn_swap _ _
  · exact lcn_swap _ _

theorem sortComparator_le_trans (column : Nat) (d : Bool) (a b c : Row)
    (h₁ : sortComparator column d a b ≠ Ordering.gt)
    (h₂ : sortComparator column d b c ≠ Ordering.gt) :
    sortComparator column d a c ≠ Ordering.gt := by
  cases d
  · exact lcn_le_trans h₁ h₂
  · exact lcn_le_trans h₂ h₁

theorem sortComparator_true_flip (column : Nat) :
    sortComparator column true = fun a b => sortComparator column false b a :=
  funext fun _ => funext fun _ => rfl

theorem sortComparator_false_ne_eq {column : Nat} {a b : Row}
    (h : cellKey column a ≠ cellKey column b) :
    sortComparator column false a b ≠ Ordering.eq :=
  fun he => h (lcn_eq he)

/-! ### Claim theorems -/

/-- C1: for every pair of rows, the comparator handed to rows.sort extracts
the trimmed text content of each row at the clicked column index and
compares it with the locale-aware numeric-collation comparison, in normal
operand order exactly when the resolved (post-toggle) direction is
ascending — that is, when the pre-click sort-asc flag was absent — and with
the operands reversed when the resolved direction is descending; a
successful click sorts the rows with precisely this comparator. -/
theorem comparator_operand_order (s : SortClickState) (i : Nat) (t : SortClickState)
    (a b : Row) (hok : clickSortableHeader s i = Except.ok t) :
    t.rows = sortCmp (sortComparator i ((s.headers.getD i default).sortAsc)) s.rows
    ∧ ((s.headers.getD i default).sortAsc = false →
        sortComparator i ((s.headers.getD i default).sortAsc) a b =
          localeCompareNumeric (trimChars (a.getD i [])) (trimChars (b.getD i [])))
    ∧ ((s.headers.getD i default).sortAsc = true →
        sortComparator i ((s.headers.getD i default).sortAsc) a b =
          localeCompareNumeric (trimChars (b.getD i [])) (trimChars (a.getD i []))) := by
  obtain ⟨hT, hB, rfl⟩ := clickSortableHeader_ok hok
  refine ⟨rfl, fun h => ?_, fun h => ?_⟩
  · rw [h]
    rfl
  · rw [h]
    rfl

/-- Witness for comparator_operand_order at a concrete two-row click. -/
theorem comparator_operand_order_witness :
    (⟨[⟨true, true, false⟩], true, true, [[['1']], [['2']]]⟩ : SortClickState).rows =
      sortCmp (sortComparator 0 (((⟨[⟨true, false, false⟩], true, true,
        [[['2']], [['1']]]⟩ : SortClickState).headers.getD 0 default).sortAsc))
        [[['2']], [['1']]] :=
  (comparator_operand_order ⟨[⟨true, false, false⟩], true, true, [[['2']], [['1']]]⟩ 0
    ⟨[⟨true, true, false⟩], true, true, [[['1']], [['2']]]⟩ [] [] rfl).1

/-- C2: sorting the single column holding the purely numeric cell texts 2,
10 and 1 ascending (a click on a header without a marker) orders the rows
as 1, 2, 10 under numeric collation, not in the lexical order 1, 10, 2. -/
theorem numeric_collation_order :
    clickSortableHeader
        ⟨[⟨true, false, false⟩], true, true, [[['2']], [['1', '0']], [['1']]]⟩ 0
      = Except.ok
        ⟨[⟨true, true, false⟩], true, true, [[['1']], [['2']], [['1', '0']]]⟩
    ∧ [[['1']], [['2']], [['1', '0']]] ≠ [[['1']], [['1', '0']], [['2']]] :=
  ⟨rfl, by decide⟩

/-- C3 counterexample: at a state whose sortable header has no enclosing
table, the click does not short-circuit to a no-op: the handler throws the
TypeError of the null table dereference, modelled by the error result, so
no final state is produced. -/
theorem click_missing_table_throws :
    clickSortableHeader ⟨[⟨true, false, false⟩], false, true, []⟩ 0
      = Except.error () :=
  clickSortableHeader_error (Or.inl rfl)

/-- C3 amended: when the body exists but has no rows the click completes
without an exception and the row list stays empty, but when the table or
its row-group body is absent the handler throws (the error result) instead
of degrading to a no-op. -/
theorem click_missing_or_empty (s : SortClickState) (i : Nat) :
    ((s.hasTable = false ∨ s.hasTbody = false) →
        clickSortableHeader s i = Except.error ())
    ∧ (s.hasTable = true → s.hasTbody = true → s.rows = [] →
        clickSortableHeader s i = Except.ok { s with
          headers := applySortMarker (clearSortMarkers s.headers) i
            ((s.headers.getD i default).sortAsc),
          rows := ([] : List Row) }) := by
  refine ⟨clickSortableHeader_error, fun hT hB hR => ?_⟩
  simp [clickSortableHeader, hT, hB, hR, sortCmp]

/-- Witness for click_missing_or_empty: the throwing branch at a state
without a table, and the empty-body branch at a complete state. -/
theorem click_missing_or_empty_witness :
    clickSortableHeader ⟨[], false, false, []⟩ 0 = Except.error ()
    ∧ clickSortableHeader ⟨[⟨true, false, false⟩], true, true, []⟩ 0
        = Except.ok ⟨[⟨true, true, false⟩], true, true, ([] : List Row)⟩ :=
  ⟨(click_missing_or_empty ⟨[], false, false, []⟩ 0).1 (Or.inl rfl),
   (click_missing_or_empty ⟨[⟨true, false, false⟩], true, true, []⟩ 0).2 rfl rfl rfl⟩

/-- C7: re-running the ascending sort on the already ascending-sorted rows,
with the direction forced to ascending both times (the isAscending flag
false selects the ascending comparator branch, and no toggle happens in
between), is idempotent: the second sort returns the same row order. -/
theorem ascending_sort_idempotent (column : Nat) (rows : List Row) :
    sortCmp (sortComparator column false) (sortCmp (sortComparator column false) rows)
      = sortCmp (sortComparator column false) rows :=
  sortCmp_eq_of_pairwise _
    (sortCmp_pairwise (sortComparator_swap column false)
      (sortComparator_le_trans column false) rows)

/-- C8: a click on a sortable header of a table whose body exists but holds
zero rows is a no-op on the rows: it completes without an error and the row
list stays empty. -/
theorem click_empty_body_noop (s : SortClickState) (i : Nat)
    (hT : s.hasTable = true) (hB : s.hasTbody = true) (hR : s.rows = []) :
    clickSortableHeader s i = Except.ok { s with
      headers := applySortMarker (clearSortMarkers s.headers) i
        ((s.headers.getD i default).sortAsc),
      rows := ([] : List Row) } := by
  simp [clickSortableHeader, hT, hB, hR, sortCmp]

/-- Witness for click_empty_body_noop at a concrete empty-body state. -/
theorem click_empty_body_noop_witness :
    clickSortableHeader ⟨[⟨true, true, false⟩], true, true, []⟩ 0
      = Except.ok ⟨[⟨true, false, true⟩], true, true, ([] : List Row)⟩ :=
  click_empty_body_noop ⟨[⟨true, true, false⟩], true, true, []⟩ 0 rfl rfl rfl

/-- C9: a successful sort click reorders the existing rows in place: the
resulting row sequence is a permutation of the original sequence (the same
row entities, contents untouched, re-appended in sorted order). -/
theorem click_rows_perm (s : SortClickState) (i : Nat) (t : SortClickState)
    (hok : clickSortableHeader s i = Except.ok t) :
    List.Perm t.rows s.rows := by
  obtain ⟨hT, hB, rfl⟩ := clickSortableHeader_ok hok
  exact sortCmp_perm _ s.rows

/-- Witness for click_rows_perm at a concrete two-row click. -/
theorem click_rows_perm_witness :
    List.Perm
      (⟨[⟨true, true, false⟩], true, true, [[['1']], [['2']]]⟩ : SortClickState).rows
      (⟨[⟨true, false, false⟩], true, true, [[['2']], [['1']]]⟩ : SortClickState).rows :=
  click_rows_perm ⟨[⟨true, false, false⟩], true, true, [[['2']], [['1']]]⟩ 0
    ⟨[⟨true, true, false⟩], true, true, [[['1']], [['2']]]⟩ rfl

/-- C4: after a successful click on a sortable header, that header carries
exactly one direction marker (sort-asc or sort-desc, not both), and every
other sortable header of the table carries none — the handler clears all
sortable headers before applying the new marker, so at most one column is
actively marked. -/
theorem single_active_marker (s : SortClickState) (i : Nat) (t : SortClickState)
    (hlen : i < s.headers.length)
    (hsortable : (s.headers.getD i default).sortable = true)
    (hok : clickSortableHeader s i = Except.ok t) :
    (((t.headers.getD i default).sortAsc = true
        ∧ (t.headers.getD i default).sortDesc = false)
      ∨ ((t.headers.getD i default).sortAsc = false
        ∧ (t.headers.getD i default).sortDesc = true))
    ∧ (∀ j, j ≠ i → (t.headers.getD j default).sortable = true →
        (t.headers.getD j default).sortAsc = false
        ∧ (t.headers.getD j default).sortDesc = false) := by
  obtain ⟨hT, hB, rfl⟩ := clickSortableHeader_ok hok
  dsimp only
  have hclen : i < (clearSortMarkers s.headers).length := by
    simpa [clearSortMarkers] using hlen
  have hC : (clearSortMarkers s.headers).getD i default =
      { s.headers.getD i default with sortAsc := false, sortDesc := false } := by
    rw [clearSortMarkers, getD_map_of_lt _ _ i default default hlen, if_pos hsortable]
  constructor
  · rw [applySortMarker, getD_set_self _ _ _ _ hclen]
    cases hA : (s.headers.getD i default).sortAsc with
    | false =>
      rw [hC]
      simp
    | true =>
      rw [hC]
      simp
  · intro j hj
    rw [applySortMarker, getD_set_ne _ _ _ hj]
    by_cases hjl : j < s.headers.length
    · rw [clearSortMarkers, getD_map_of_lt _ _ j default default hjl]
      cases hs : (s.headers.getD j default).sortable with
      | true =>
        intro _
        rw [if_pos rfl]
        exact ⟨rfl, rfl⟩
      | false =>
        intro hc
        rw [if_neg (by decide)] at hc
        rw [hs] at hc
        exact absurd hc (by decide)
    · have hge : (clearSortMarkers s.headers).length ≤ j := by
        simp only [clearSortMarkers, List.length_map]
        omega
      rw [getD_of_length_le _ _ _ hge]
      intro hc
      exact absurd hc (by decide)

/-- Witness for single_active_marker: a click on the first of two sortable
headers while the second carries a descending marker; afterwards the first
carries exactly the ascending marker and the second carries none. -/
theorem single_active_marker_witness :
    (((⟨true, true, false⟩ : HeaderState).sortAsc = true
        ∧ (⟨true, true, false⟩ : HeaderState).sortDesc = false)
      ∨ ((⟨true, true, false⟩ : HeaderState).sortAsc = false
        ∧ (⟨true, true, false⟩ : HeaderState).sortDesc = true))
    ∧ ((⟨true, false, false⟩ : HeaderState).sortAsc = false
        ∧ (⟨true, false, false⟩ : HeaderState).sortDesc = false) :=
  ⟨(single_active_marker
      ⟨[⟨true, false, false⟩, ⟨true, false, true⟩], true, true, []⟩ 0
      ⟨[⟨true, true, false⟩, ⟨true, false, false⟩], true, true, []⟩
      (by decide) rfl rfl).1,
   (single_active_marker
      ⟨[⟨true, false, false⟩, ⟨true, false, true⟩], true, true, []⟩ 0
      ⟨[⟨true, true, false⟩, ⟨true, false, false⟩], true, true, []⟩
      (by decide) rfl rfl).2 1 (by decide) rfl⟩

/-- C5: a click on a sortable header applies the logical opposite of the
direction marker the header carried before the click: a header whose
sort-asc marker is absent (state unset or descending) transitions to the
ascending marker, and a header carrying sort-asc transitions to the
descending marker. -/
theorem direction_toggle (s : SortClickState) (i : Nat) (t : SortClickState)
    (hlen : i < s.headers.length)
    (hsortable : (s.headers.getD i default).sortable = true)
    (hok : clickSortableHeader s i = Except.ok t) :
    ((s.headers.getD i default).sortAsc = false →
        (t.headers.getD i default).sortAsc = true
        ∧ (t.headers.getD i default).sortDesc = false)
    ∧ ((s.headers.getD i default).sortAsc = true →
        (t.headers.getD i default).sortAsc = false
        ∧ (t.headers.getD i default).sortDesc = true) := by
  obtain ⟨hT, hB, rfl⟩ := clickSortableHeader_ok hok
  dsimp only
  have hclen : i < (clearSortMarkers s.headers).length := by
    simpa [clearSortMarkers] using hlen
  have hC : (clearSortMarkers s.headers).getD i default =
      { s.headers.getD i default with sortAsc := false, sortDesc := false } := by
    rw [clearSortMarkers, getD_map_of_lt _ _ i default default hlen, if_pos hsortable]
  constructor
  · intro hA
    rw [applySortMarker, getD_set_self _ _ _ _ hclen, hA, hC]
    simp
  · intro hA
    rw [applySortMarker, getD_set_self _ _ _ _ hclen, hA, hC]
    simp

/-- Witness for direction_toggle: a descending-marked header toggles to
ascending and an ascending-marked header toggles to descending. -/
theorem direction_toggle_witness :
    ((⟨true, true, false⟩ : HeaderState).sortAsc = true
      ∧ (⟨true, true, false⟩ : HeaderState).sortDesc = false)
    ∧ ((⟨true, false, true⟩ : HeaderState).sortAsc = false
      ∧ (⟨true, false, true⟩ : HeaderState).sortDesc = true) :=
  ⟨(direction_toggle ⟨[⟨true, false, true⟩], true, true, []⟩ 0
      ⟨[⟨true, true, false⟩], true, true, []⟩ (by decide) rfl rfl).1 rfl,
   (direction_toggle ⟨[⟨true, true, false⟩], true, true, []⟩ 0
      ⟨[⟨true, false, true⟩], true, true, []⟩ (by decide) rfl rfl).2 rfl⟩

/-- C6: when the target column has pairwise distinct keys, clicking the same
sortable header immediately after an ascending sort (the first click lands
on a header without the sort-asc marker) yields the descending order, and
the resulting row sequence is exactly the reverse of the ascending row
sequence. -/
theorem second_click_reverses (s : SortClickState) (i : Nat) (t₁ t₂ : SortClickState)
    (hlen : i < s.headers.length)
    (hA0 : (s.headers.getD i default).sortAsc = false)
    (hdist : List.Pairwise (fun a b : Row => cellKey i a ≠ cellKey i b) s.rows)
    (h₁ : clickSortableHeader s i = Except.ok t₁)
    (h₂ : clickSortableHeader t₁ i = Except.ok t₂) :
    t₂.rows = t₁.rows.reverse := by
  obtain ⟨hT, hB, rfl⟩ := clickSortableHeader_ok h₁
  obtain ⟨hT₂, hB₂, rfl⟩ := clickSortableHeader_ok h₂
  dsimp only
  have hclen : i < (clearSortMarkers s.headers).length := by
    simpa [clearSortMarkers] using hlen
  have hA1 : ((applySortMarker (clearSortMarkers s.headers) i
      ((s.headers.getD i default).sortAsc)).getD i default).sortAsc = true := by
    rw [applySortMarker, getD_set_self _ _ _ _ hclen, hA0]
    rfl
  rw [hA1, hA0, sortComparator_true_flip i]
  exact sortCmp_flip_eq_reverse (sortComparator_swap i false)
    (sortComparator_le_trans i false) s.rows
    (hdist.imp fun h => sortComparator_false_ne_eq h)

/-- Witness for second_click_reverses: two clicks on a one-column table
holding the values 2 and 1; the second click exactly reverses the sorted
rows. -/
theorem second_click_reverses_witness :
    (⟨[⟨true, false, true⟩], true, true, [[['2']], [['1']]]⟩ : SortClickState).rows =
      (⟨[⟨true, true, false⟩], true, true,
        [[['1']], [['2']]]⟩ : SortClickState).rows.reverse :=
  second_click_reverses
    ⟨[⟨true, false, false⟩], true, true, [[['2']], [['1']]]⟩ 0
    ⟨[⟨true, true, false⟩], true, true, [[['1']], [['2']]]⟩
    ⟨[⟨true, false, true⟩], true, true, [[['2']], [['1']]]⟩
    (by decide) rfl (by decide) rfl rfl

/-- C10: after the number-input sanitizing handler runs, the resulting value
consists only of decimal digits and at most one dot: every other character
is stripped, and when more than one dot survives the stripping, all dots
after the first are removed. -/
theorem sanitize_digits_single_dot (value : List Char) :
    (∀ c ∈ sanitizeNumberValue value, c.isDigit = true ∨ c = '.')
    ∧ (sanitizeNumberValue value).count '.' ≤ 1 := by
  have hvd : ∀ c ∈ value.filter (fun c => c.isDigit || c == '.'),
      c.isDigit = true ∨ c = '.' := by
    intro c hc
    have hp := List.of_mem_filter hc
    simpa using hp
  show (∀ c ∈ (let v := value.filter fun c => c.isDigit || c == '.'
      let parts := splitDot v
      if parts.length > 2 then parts.headD [] ++ '.' :: (parts.drop 1).flatten
      else v), c.isDigit = true ∨ c = '.')
    ∧ (let v := value.filter fun c => c.isDigit || c == '.'
      let parts := splitDot v
      if parts.length > 2 then parts.headD [] ++ '.' :: (parts.drop 1).flatten
      else v).count '.' ≤ 1
  generalize hveq : value.filter (fun c => c.isDigit || c == '.') = v at hvd
  cases hsp : splitDot v with
  | nil => exact absurd hsp (splitDot_ne_nil v)
  | cons p ps =>
    have hpmem : p ∈ splitDot v := by
      rw [hsp]
      exact List.mem_cons_self p ps
    have hnodot_p : '.' ∉ p := fun hin =>
      (splitDot_parts v p hpmem '.' hin).2 rfl
    have hnodot_flat : '.' ∉ ps.flatten := by
      intro hin
      obtain ⟨q, hq, hcq⟩ := List.mem_flatten.mp hin
      have hqmem : q ∈ splitDot v := by
        rw [hsp]
        exact List.mem_cons_of_mem p hq
      exact (splitDot_parts v q hqmem '.' hcq).2 rfl
    dsimp only
    rw [hsp]
    by_cases hgt : (p :: ps).length > 2
    · rw [if_pos hgt]
      constructor
      · intro c hc
        rcases List.mem_append.mp hc with hcp | hctail
        · exact hvd c (splitDot_parts v p hpmem c hcp).1
        · rcases List.mem_cons.mp hctail with rfl | hcf
          · exact Or.inr rfl
          · obtain ⟨q, hq, hcq⟩ := List.mem_flatten.mp hcf
            have hqmem : q ∈ splitDot v := by
              rw [hsp]
              exact List.mem_cons_of_mem p (by simpa using hq)
            exact hvd c (splitDot_parts v q hqmem c hcq).1
      · have hcp : List.count '.' p = 0 := List.count_eq_zero.mpr hnodot_p
        have hcf : List.count '.' ps.flatten = 0 :=
          List.count_eq_zero.mpr hnodot_flat
        simp [List.count_append, List.count_cons, hcp, hcf]
    · rw [if_neg hgt]
      refine ⟨hvd, ?_⟩
      have hlenv := splitDot_length v
      rw [hsp] at hlenv
      simp only [List.length_cons] at hlenv hgt
      omega

/-- Witness for sanitize_digits_single_dot on a value holding a letter and
two dots. -/
theorem sanitize_digits_single_dot_witness :
    ('1'.isDigit = true ∨ '1' = '.')
    ∧ (sanitizeNumberValue ['x', '1', '.', '2', '.', '3']).count '.' ≤ 1 :=
  ⟨(sanitize_digits_single_dot ['x', '1', '.', '2', '.', '3']).1 '1' (by decide),
   (sanitize_digits_single_dot ['x', '1', '.', '2', '.', '3']).2⟩
